import Mathlib

/-!
Shallow embedding of the fallback intent-matching and sentiment-classification
core of the Ai-chatbot repository (src/app.py and src/main.py), together with
a faithful model of the parts of Python's difflib used by the code
(SequenceMatcher.ratio / get_close_matches with n = 1, cutoff = 0.6).

Machine floats are modelled by exact rationals: every similarity value the
code manipulates has the form 2*M/T with T bounded by the summed lengths of
two short strings, so exact rational comparison against the cutoff 0.6 and
between two such values coincides with the float comparisons performed by
difflib.  Executable comparisons are phrased over Nat by cross-multiplying,
with bridge lemmas to the rational-valued ratio used in statements.
-/

/-! ## Basic string helpers (Python str.strip / str.lower on ASCII data) -/

/-- Characters stripped by Python `str.strip()` with no argument. -/
def isPySpace (c : Char) : Bool :=
  c = ' ' || c = '\t' || c = '\n' || c = '\r' || c = '\x0b' || c = '\x0c'

/-- Model of `str.strip()`: drop leading and trailing whitespace. -/
def stripChars (l : List Char) : List Char :=
  ((l.dropWhile isPySpace).reverse.dropWhile isPySpace).reverse

/-- Model of `str.lower()` on the ASCII range (all prompts and user inputs
relevant to the specification are ASCII). -/
def asciiLower (c : Char) : Char :=
  if 'A' ≤ c ∧ c ≤ 'Z' then Char.ofNat (c.toNat + 32) else c

/-- Model of `s.strip().lower()`, the normalization applied by
`fallback_get_response` in src/app.py to both table keys and user input. -/
def normalizeStr (s : String) : String :=
  String.mk ((stripChars s.data).map asciiLower)

/-- Model of Python's substring test `needle in hay` : does `hay` start with
`needle`? (helper for the containment test below). -/
def startsWithList : List Char → List Char → Bool
  | _, [] => true
  | [], _ :: _ => false
  | x :: xs, y :: ys => x = y && startsWithList xs ys

/-- Model of Python's substring containment `needle in hay`. -/
def containsSub (needle : List Char) : List Char → Bool
  | [] => needle.isEmpty
  | c :: rest => startsWithList (c :: rest) needle || containsSub needle rest

/-! ## Association-list model of a Python dict with string keys

Python dicts preserve insertion order; writing to an existing key updates the
value in place and keeps the key's position.  `mapping.keys()` is the list of
first components in order. -/

/-- Model of `key in mapping`. -/
def containsKeyB (k : String) (m : List (String × String)) : Bool :=
  m.any (fun p => decide (p.1 = k))

/-- Model of `mapping[key]` / `mapping.get(key)`: first (and, for dict-built
lists, only) entry with the given key. -/
def lookupStr (k : String) : List (String × String) → Option String
  | [] => none
  | p :: rest => if p.1 = k then some p.2 else lookupStr k rest

/-- Model of `mapping.get(key, default)`. -/
def lookupD (k : String) (m : List (String × String)) (d : String) : String :=
  (lookupStr k m).getD d

/-- Model of `mapping[k] = v` on a dict: overwrite in place if the key is
present, else append. -/
def assocUpsert (m : List (String × String)) (k v : String) : List (String × String) :=
  if containsKeyB k m then m.map (fun p => if p.1 = k then (k, v) else p)
  else m ++ [(k, v)]

/-! ## Phrase-table builder (src/app.py lines 138-143)

`for i in range(0, len(CONVERSATION)-1, 2): mapping[lst[i].strip().lower()] = lst[i+1]`
walks the flat list two at a time, ignoring a trailing unpaired element. -/

/-- Successive (prompt, response) pairs of a flat alternating list; a trailing
unpaired element is dropped, exactly as `range(0, len-1, 2)` does. -/
def toPairs : List String → List (String × String)
  | a :: b :: rest => (a, b) :: toPairs rest
  | _ => []

/-- The phrase-table builder of src/app.py: normalized prompt keys, verbatim
response values, last write wins on duplicate normalized keys. -/
def buildMapping (conv : List String) : List (String × String) :=
  (toPairs conv).foldl (fun m p => assocUpsert m (normalizeStr p.1) p.2) []

/-! ## Model of difflib.SequenceMatcher (isjunk = None, autojunk = True)

`get_close_matches(word, keys, n=1, cutoff=0.6)` sets `b = word` and, for each
candidate `a = x` in `keys`, computes `SequenceMatcher(None, x, word).ratio()`,
keeping `x` only if `real_quick_ratio`, `quick_ratio` and `ratio` all reach the
cutoff, and finally returns the candidate whose `(ratio, x)` tuple is largest.

`ratio` is `2*M/T` where `T = len(a) + len(b)` and `M` is the total size of
the matching blocks found by repeatedly locating the longest matching block
(Ratcliff-Obershelp).  With `isjunk = None`, the only junk is "popular"
elements of `b` (autojunk): when `len(b) >= 200`, elements occurring more
than `len(b) // 100 + 1` times are removed from the index `b2j`, so matching
runs cannot use them, but the final extension step can still extend the best
block across them. -/

/-- Popular (autojunk) elements of `b`: only when `b` has at least 200
elements, those occurring more than `len(b) / 100 + 1` times. -/
def popularChars (b : List Char) : List Char :=
  if b.length < 200 then []
  else b.dedup.filter (fun c => decide (b.length / 100 + 1 < b.count c))

/-- Length of the maximal common run of the two lists' heads that avoids
popular elements of `b` — the runs found by the `j2len` loop of
`find_longest_match`, whose `b2j` index omits popular elements. -/
def runNP (pop : List Char) : List Char → List Char → Nat
  | x :: xs, y :: ys => if x = y ∧ y ∉ pop then runNP pop xs ys + 1 else 0
  | _, _ => 0

/-- Length of the maximal common run of the two lists' heads (used by the
extension loops of `find_longest_match`, which with `isjunk = None` extend
through arbitrary equal elements). -/
def runEq : List Char → List Char → Nat
  | x :: xs, y :: ys => if x = y then runEq xs ys + 1 else 0
  | _, _ => 0

/-- All candidate anchors `(i, j, k)` where `k` is the non-popular common run
at offsets `i` in `a` and `j` in `b`, in the scan order of
`find_longest_match` (`i` ascending, then `j` ascending). -/
def candRuns (pop : List Char) (a b : List Char) : List (Nat × Nat × Nat) :=
  (List.range a.length).flatMap fun i =>
    (List.range b.length).map fun j => (i, j, runNP pop (a.drop i) (b.drop j))

/-- Core of `find_longest_match`: the longest non-popular matching run, with
ties broken towards the smallest `i`, then the smallest `j` (the loop only
replaces the current best on a strictly larger size). -/
def flmCore (pop : List Char) (a b : List Char) : Nat × Nat × Nat :=
  (candRuns pop a b).foldl (fun best c => if best.2.2 < c.2.2 then c else best) (0, 0, 0)

/-- Model of `SequenceMatcher.find_longest_match` on whole sequences (with
`isjunk = None`, so the junk-set used by the extension loops is empty): the
best non-popular run, extended first to the left and then to the right over
arbitrary equal elements.  When the core finds nothing the extension still
grows a block anchored at the start of both sequences, exactly as the
forward extension loop does from `(alo, blo, 0)`.  The popular set comes
from the full second sequence, fixed once by `set_seq2`. -/
def flm (pop : List Char) (a b : List Char) : Nat × Nat × Nat :=
  let r := flmCore pop a b
  let e := runEq (a.take r.1).reverse (b.take r.2.1).reverse
  let i := r.1 - e
  let j := r.2.1 - e
  let k := r.2.2 + e
  (i, j, k + runEq (a.drop (i + k)) (b.drop (j + k)))

/-- Total size of all matching blocks (`get_matching_blocks`): take the
longest match and recurse on the parts before and on the parts after it.
The fuel `a.length + b.length` strictly dominates the recursion depth, since
each recursive call strictly shrinks the combined length. -/
def mtRec (pop : List Char) : Nat → List Char → List Char → Nat
  | 0, _, _ => 0
  | fuel + 1, a, b =>
    let r := flm pop a b
    if r.2.2 = 0 then 0
    else
      mtRec pop fuel (a.take r.1) (b.take r.2.1) + r.2.2 +
        mtRec pop fuel (a.drop (r.1 + r.2.2)) (b.drop (r.2.1 + r.2.2))

/-- The number `M` of matched elements between `a` and `b` underlying
`SequenceMatcher(None, a, b).ratio()`. -/
def mTotal (a b : List Char) : Nat := mtRec (popularChars b) (a.length + b.length) a b

/-- difflib's `_calculate_ratio(matches, length)`: `2*matches/length`, and 1
when both sequences are empty. -/
def calcRatioQ (m total : Nat) : ℚ :=
  if total = 0 then 1 else 2 * (m : ℚ) / (total : ℚ)

/-- `SequenceMatcher(None, a, b).ratio()` as an exact rational. -/
def ratioQ (a b : List Char) : ℚ := calcRatioQ (mTotal a b) (a.length + b.length)

/-- `quick_ratio()`: an upper bound on `ratio()` counting, for each element,
the minimum of its multiplicities in the two sequences. -/
def quickRatioQ (a b : List Char) : ℚ :=
  calcRatioQ ((Multiset.ofList a ∩ Multiset.ofList b).card) (a.length + b.length)

/-- `real_quick_ratio()`: the coarser upper bound using only the lengths. -/
def realQuickRatioQ (a b : List Char) : ℚ :=
  calcRatioQ (min a.length b.length) (a.length + b.length)

/-! ## Executable comparisons on ratios

A ratio is determined by the pair `(matches, total)` with value
`2*matches/total` (1 when `total = 0`).  The comparisons below are the exact
rational comparisons, phrased over Nat by cross-multiplication so that they
evaluate inside the kernel. -/

/-- Cutoff test `cn/cd <= 2*m/t` (with `t = 0` read as value 1). -/
def geCutoffB (cn cd m t : Nat) : Bool :=
  if t = 0 then decide (cn ≤ cd) else decide (cn * t ≤ cd * (2 * m))

/-- Strict comparison `2*m1/t1 < 2*m2/t2` (zero totals read as value 1). -/
def ratLtB (m1 t1 m2 t2 : Nat) : Bool :=
  if t1 = 0 then (if t2 = 0 then false else decide (t2 < 2 * m2))
  else if t2 = 0 then decide (2 * m1 < t1)
  else decide (m1 * t2 < m2 * t1)

/-- Equality `2*m1/t1 = 2*m2/t2` (zero totals read as value 1). -/
def ratEqB (m1 t1 m2 t2 : Nat) : Bool :=
  if t1 = 0 then (if t2 = 0 then true else decide (t2 = 2 * m2))
  else if t2 = 0 then decide (2 * m1 = t1)
  else decide (m1 * t2 = m2 * t1)

/-- Python's lexicographic string comparison `<` by code points. -/
def lexLtB : List Char → List Char → Bool
  | [], [] => false
  | [], _ :: _ => true
  | _ :: _, [] => false
  | x :: xs, y :: ys => if x = y then lexLtB xs ys else decide (x < y)

/-- A scored candidate: `((matches, total), key)` standing for the Python
tuple `(ratio, x)` built by `get_close_matches`. -/
abbrev ScoredKey := (Nat × Nat) × List Char

/-- Python tuple comparison `(r1, x1) < (r2, x2)`. -/
def pairLtB (p q : ScoredKey) : Bool :=
  ratLtB p.1.1 p.1.2 q.1.1 q.1.2 ||
    (ratEqB p.1.1 p.1.2 q.1.1 q.1.2 && lexLtB p.2 q.2)

/-- `heapq.nlargest(1, result)` on `(ratio, x)` tuples: the maximum under the
tuple order (the fold replaces the current best only on a strictly larger
element, matching the stability of `nlargest`). -/
def best1 : List ScoredKey → Option ScoredKey
  | [] => none
  | p :: rest => some (rest.foldl (fun b c => if pairLtB b c then c else b) p)

/-- The filter applied by `get_close_matches` to each candidate `x`:
`real_quick_ratio() >= cutoff and quick_ratio() >= cutoff and ratio() >= cutoff`
with cutoff `cn/cd`. -/
def candTestB (cn cd : Nat) (x word : List Char) : Bool :=
  geCutoffB cn cd (min x.length word.length) (x.length + word.length) &&
  geCutoffB cn cd ((Multiset.ofList x ∩ Multiset.ofList word).card) (x.length + word.length) &&
  geCutoffB cn cd (mTotal x word) (x.length + word.length)

/-- The scored-candidate list built by `get_close_matches` before selection. -/
def gcmCands (cn cd : Nat) (word : List Char) (poss : List (List Char)) : List ScoredKey :=
  poss.filterMap fun x =>
    if candTestB cn cd x word then some (((mTotal x word, x.length + word.length), x) : ScoredKey)
    else none

/-- Model of `difflib.get_close_matches(word, possibilities, n=1, cutoff=cn/cd)`. -/
def getCloseMatches (cn cd : Nat) (word : List Char) (poss : List (List Char)) : List (List Char) :=
  match best1 (gcmCands cn cd word poss) with
  | some p => [p.2]
  | none => []

/-! ## The fixed conversation list of src/app.py (lines 48-84) -/

/-- The flat alternating prompt/response list `CONVERSATION` of src/app.py. -/
def CONVERSATION : List String := [
  "Hello", "Hello! Welcome to our textile and clothing store. How may I assist you today?",
  "Hi", "Hi there! How can I help you with fabrics or clothing today?",
  "Good morning", "Good morning! How can I support you with your textile needs today?",
  "Good afternoon", "Good afternoon! How may I assist you?",
  "What are the latest clothing trends?", "Current trends include breathable fabrics like cotton and linen, oversized fits, pastel colors, and sustainable eco-friendly materials.",
  "What are the latest textile trends?", "Popular textile trends include organic fabrics, textured weaves, geometric patterns, digital prints, and soft-tone dyeing techniques.",
  "What about textile patterns?", "Floral prints, geometric motifs, minimalistic stripes, and classy jacquard textures are trending this season.",
  "What fabrics do you recommend?", "I recommend organic cotton for comfort, linen blends for summer wear, and OEKO-TEX certified materials for safe and sustainable clothing.",
  "Which fabric is best for summer?", "For summer, lightweight cotton, linen, and rayon fabrics are excellent due to their breathability and soft texture.",
  "Which fabric is best for winter?", "For winter, wool, fleece, heavy cotton, and flannel are highly suitable for warmth and comfort.",
  "Do you offer custom tailoring?", "Yes, we offer tailoring for selected items. Please share your measurements or preferred fit for assistance.",
  "Do you provide size guidance?", "Yes, we do! We offer sizes from XS to XXL, and I can help you choose the best fit based on your body measurements.",
  "What sizes do you offer?", "We offer sizes XS, S, M, L, XL, and XXL. For detailed measurements, please check our size chart.",
  "Can I return an item?", "Yes, items can be returned within 30 days, provided they are unused and have original tags attached.",
  "How do I return an item?", "To return an item, simply submit a return request through your order history or contact our support team. We will guide you through the steps.",
  "Do you accept exchanges?", "Yes, we accept exchanges within 30 days. The item should be unused and in its original condition.",
  "What payment methods do you accept?", "We accept credit cards, debit cards, UPI, PayPal, and net banking. For bulk orders, bank transfers are also supported.",
  "Do you offer discounts?", "Yes, we frequently offer seasonal sales, promotional codes, and special offers for loyalty members.",
  "Are there any ongoing offers?", "Currently, we have discounts on selected cotton fabrics and a 10% promotion on all linen products.",
  "Do you offer wholesale or bulk pricing?", "Yes, we do! For bulk or wholesale orders, please provide your quantity and we will share a customized quotation.",
  "Do you offer international shipping?", "Yes, we ship internationally. Charges and delivery times vary by location.",
  "How long does delivery take?", "Standard delivery takes 4–7 days, while express delivery takes 1–3 days depending on your region.",
  "What is your shipping policy?", "We offer free shipping on selected orders and charge a small fee for express delivery. Shipping details are shown at checkout.",
  "Is COD available?", "Yes, Cash on Delivery is available for select regions and order values.",
  "Are your fabrics sustainable?", "Yes, we offer a wide range of sustainable fabrics, including organic cotton, bamboo fabrics, and recycled polyester blends.",
  "How should I wash cotton fabric?", "For cotton fabrics, use mild detergent and cold water. Avoid direct sunlight for drying if you want to preserve color.",
  "How should I wash linen?", "Wash linen with gentle detergent in lukewarm water. Avoid harsh rubbing to maintain fabric texture.",
  "Do your fabrics shrink?", "Some natural fabrics like cotton and linen may have slight shrinkage. We recommend pre-washing before tailoring.",
  "Can I track my order?", "Yes, after placing your order, you will receive a tracking link via email or SMS.",
  "Do you provide sample swatches?", "Yes, we offer fabric swatches for selected materials so you can check texture and color before purchasing.",
  "Can you recommend a fabric for formal wear?", "For formal wear, we suggest premium cotton, satin blends, silk blends, and wrinkle-resistant fabrics.",
  "Can you recommend a fabric for kids?", "For kids, soft and breathable fabrics like cotton, jersey knit, and bamboo fabric are ideal.",
  "Thank you", "You\x27re welcome! If you need any more help, feel free to ask.",
  "Thanks", "My pleasure! Let me know if you have any other questions.",
  "Goodbye", "Goodbye! Have a great day and feel free to visit again."
]

/-! ## The fallback responder of src/app.py (lines 136-161) -/

/-- Keyword-heuristic and generic-fallback steps of `fallback_get_response`
(src/app.py lines 153-161), reached when neither the exact nor the fuzzy
match fired; first match wins. -/
def keywordFallback (mapping : List (String × String)) (key : String) : String :=
  if containsSub "hi".data key.data || containsSub "hello".data key.data ||
      containsSub "hey".data key.data then
    lookupD "hello" mapping "Hello!"
  else if containsSub "thank".data key.data || containsSub "thanks".data key.data then
    lookupD "thank you" mapping "You\x27re welcome!"
  else if containsSub "return".data key.data || containsSub "refund".data key.data then
    lookupD "can i return an item?" mapping "Yes, items can be returned within 30 days, provided they are unused and have original tags attached."
  else
    "Sorry — I don\x27t have a precise answer for that yet. Could you rephrase or ask about fabrics, sizes, orders, or returns?"

/-- Body of `fallback_get_response` after normalization: exact match, then
`difflib.get_close_matches(key, mapping.keys(), n=1, cutoff=0.6)`, then the
keyword heuristics and the generic fallback. -/
def respondCore (mapping : List (String × String)) (key : String) : String :=
  if containsKeyB key mapping then lookupD key mapping ""
  else
    match getCloseMatches 3 5 key.data (mapping.map fun p => p.1.data) with
    | c :: _ => lookupD (String.mk c) mapping ""
    | [] => keywordFallback mapping key

/-- The fallback responder over an arbitrary phrase table: normalize the
input (`user_text.strip().lower()`), then run the matching cascade. -/
def respond (mapping : List (String × String)) (user_text : String) : String :=
  respondCore mapping (normalizeStr user_text)

/-- `fallback_get_response` of src/app.py: the responder applied to the table
built (inside the function) from the fixed `CONVERSATION` list. -/
def fallback_get_response (user_text : String) : String :=
  respond (buildMapping CONVERSATION) user_text

/-! ## The fallback responder of src/main.py (lines 53-65) -/

/-- The inline literal mapping of `fallback_get_response` in src/main.py. -/
def mainMapping : List (String × String) := [
  ("hello", "Hello! Welcome to our textile and clothing store. How may I assist you today?"),
  ("hi", "Hi there! How can I help you with fabrics or clothing today?"),
  ("what are the latest clothing trends?", "Current trends include breathable fabrics like cotton and linen, oversized fits, pastel colors, and sustainable eco-friendly materials."),
  ("which fabric is best for summer?", "For summer, lightweight cotton, linen, and rayon fabrics are excellent due to their breathability and soft texture."),
  ("thank you", "You\x27re welcome! If you need any more help, feel free to ask."),
  ("thanks", "My pleasure! Let me know if you have any other questions."),
  ("goodbye", "Goodbye! Have a great day and feel free to visit again.")
]

/-- `fallback_get_response` of src/main.py: exact lookup on the normalized
input in the literal mapping, with its own generic default. -/
def main_fallback_get_response (text_input : String) : String :=
  lookupD (normalizeStr text_input) mainMapping
    "Sorry, I don\x27t have an answer for that yet. Could you try rephrasing?"

/-! ## Sentiment classification (src/app.py lines 164-173, src/main.py 134-142)

The VADER scorer is an external lexicon-based primitive; it is modelled as an
arbitrary function from the input text to its score record, of which the code
only reads the `compound` field. -/

/-- The record returned by `sia.polarity_scores`; the compound score is a
float in `[-1, 1]`, modelled as an exact rational. -/
structure PolarityScores where
  neg : ℚ
  neu : ℚ
  pos : ℚ
  compound : ℚ

/-- The result dict of `analyze_sentiment` in src/app.py. -/
structure SentimentResult where
  label : String
  score : ℚ
  details : PolarityScores

/-- `analyze_sentiment` of src/app.py, parametrized by the external scorer. -/
def analyze_sentiment (siaScores : String → PolarityScores) (text : String) : SentimentResult :=
  let scores := siaScores text
  let compound := scores.compound
  let label :=
    if compound ≥ 1/2 then "Positive"
    else if compound ≤ -(1/2) then "Negative"
    else "Neutral"
  ⟨label, compound, scores⟩

/-- `get_sentiment_label` of src/main.py, parametrized by the external
scorer; returns the `(label, compound)` pair. -/
def get_sentiment_label (siaScores : String → PolarityScores) (textInput : String) : String × ℚ :=
  let compound := (siaScores textInput).compound
  if compound ≥ 1/2 then ("Positive", compound)
  else if compound ≤ -(1/2) then ("Negative", compound)
  else ("Neutral", compound)

/-! ## Generic lemmas about the association-list dict model -/

theorem lookupStr_mem {m : List (String × String)} {k v : String} (h : lookupStr k m = some v) : (k, v) ∈ m := by
  induction m with
  | nil => simp [lookupStr] at h
  | cons p rest ih =>
    cases p with
    | mk a b =>
      by_cases hp : a = k
      · simp only [lookupStr, hp, if_pos, Option.some.injEq] at h
        subst hp
        subst h
        exact List.mem_cons_self _ _
      · simp only [lookupStr, hp, if_neg, not_false_iff] at h
        exact List.mem_cons_of_mem _ (ih h)

theorem containsKeyB_some {m : List (String × String)} {k : String} (h : containsKeyB k m = true) : ∃ v, lookupStr k m = some v := by
  induction m with
  | nil => simp [containsKeyB] at h
  | cons p rest ih =>
    by_cases hp : p.1 = k
    · exact ⟨p.2, by simp [lookupStr, hp]⟩
    · simp only [containsKeyB, List.any_cons, Bool.or_eq_true, decide_eq_true_eq] at h
      rcases h with h | h
      · exact absurd h hp
      · obtain ⟨v, hv⟩ := ih h
        exact ⟨v, by simp [lookupStr, hp, hv]⟩

theorem mem_keys_some {m : List (String × String)} {k : String} (h : k ∈ m.map Prod.fst) : ∃ v, lookupStr k m = some v := by
  apply containsKeyB_some
  simp only [List.mem_map] at h
  obtain ⟨p, hp, rfl⟩ := h
  simp only [containsKeyB, List.any_eq_true]
  exact ⟨p, hp, by simp⟩

/-! ## Generic lemmas about fold-based selection -/

theorem foldl_choice_mem {α : Type} (f : α → α → α) (hf : ∀ x y, f x y = x ∨ f x y = y) : ∀ (l : List α) (init : α), l.foldl f init ∈ init :: l := by
  intro l
  induction l with
  | nil => intro init; simp
  | cons c rest ih =>
    intro init
    have h1 := ih (f init c)
    have h2 := hf init c
    simp only [List.foldl_cons]
    rcases List.mem_cons.mp h1 with h | h
    · rw [h]
      rcases h2 with h2 | h2 <;> rw [h2] <;> simp
    · exact List.mem_cons_of_mem _ (List.mem_cons_of_mem _ h)

theorem best1_mem {l : List ScoredKey} {p : ScoredKey} (h : best1 l = some p) : p ∈ l := by
  match l with
  | [] => simp [best1] at h
  | q :: rest =>
    simp only [best1, Option.some.injEq] at h
    have := foldl_choice_mem (fun b c => if pairLtB b c then c else b)
      (fun x y => by by_cases hxy : pairLtB x y <;> simp [hxy]) rest q
    rw [h] at this
    exact this

theorem gcmCands_mem {cn cd : Nat} {w : List Char} {poss : List (List Char)} {p : ScoredKey} (h : p ∈ gcmCands cn cd w poss) : p.2 ∈ poss ∧ candTestB cn cd p.2 w = true ∧ p.1.1 = mTotal p.2 w ∧ p.1.2 = p.2.length + w.length := by
  unfold gcmCands at h
  rw [List.mem_filterMap] at h
  obtain ⟨x, hx, hfx⟩ := h
  by_cases ht : candTestB cn cd x w
  · simp only [ht, if_pos] at hfx
    cases hfx
    exact ⟨hx, ht, rfl, rfl⟩
  · simp [ht] at hfx

theorem getCloseMatches_subset {cn cd : Nat} {w c : List Char} {poss : List (List Char)} (h : c ∈ getCloseMatches cn cd w poss) : c ∈ poss ∧ candTestB cn cd c w = true := by
  unfold getCloseMatches at h
  rcases hb : best1 (gcmCands cn cd w poss) with _ | p
  · rw [hb] at h
    simp at h
  · rw [hb] at h
    simp only [List.mem_singleton] at h
    subst h
    have hm := gcmCands_mem (best1_mem hb)
    exact ⟨hm.1, hm.2.1⟩

/-! ## Claim theorems -/

/-- C4: for every input text, the classifier labels it Positive when the
scorer's compound score is at least 0.5, Negative when it is at most -0.5,
and Neutral otherwise; the boundary scores 0.5 and -0.5 receive the extreme
label, and the returned score is exactly the compound score.  Both the
src/app.py and the src/main.py implementations satisfy this. -/
theorem C4_sentiment_thresholds (siaScores : String → PolarityScores) (text : String) :
    ((analyze_sentiment siaScores text).label = "Positive" ↔ (1:ℚ)/2 ≤ (siaScores text).compound) ∧
    ((analyze_sentiment siaScores text).label = "Negative" ↔ (siaScores text).compound ≤ -((1:ℚ)/2)) ∧
    ((analyze_sentiment siaScores text).label = "Neutral" ↔
      (-((1:ℚ)/2) < (siaScores text).compound ∧ (siaScores text).compound < (1:ℚ)/2)) ∧
    (analyze_sentiment siaScores text).score = (siaScores text).compound ∧
    (get_sentiment_label siaScores text).1 = (analyze_sentiment siaScores text).label ∧
    (get_sentiment_label siaScores text).2 = (siaScores text).compound := by
  simp only [analyze_sentiment, get_sentiment_label]
  split_ifs with h1 h2
  · refine ⟨⟨fun _ => h1, fun _ => rfl⟩, ⟨fun h => absurd h (by decide), fun h => absurd (h1.trans h) (by norm_num)⟩, ⟨fun h => absurd h (by decide), fun h => absurd h.2 (not_lt.mpr h1)⟩, by trivial, by trivial, by trivial⟩
  · refine ⟨⟨fun h => absurd h (by decide), fun h => absurd h h1⟩, ⟨fun _ => h2, fun _ => rfl⟩, ⟨fun h => absurd h (by decide), fun h => absurd h.1 (not_lt.mpr h2)⟩, by trivial, by trivial, by trivial⟩
  · refine ⟨⟨fun h => absurd h (by decide), fun h => absurd h h1⟩, ⟨fun h => absurd h (by decide), fun h => absurd h h2⟩, ⟨fun _ => ⟨not_le.mp h2, not_le.mp h1⟩, fun _ => rfl⟩, by trivial, by trivial, by trivial⟩

/-- C7: for every empty or whitespace-only input string, the responder of
src/app.py returns exactly the generic apology fallback string — not an
error and not any table entry or keyword reply. -/
theorem C7_blank_input (input : String) (h : stripChars input.data = []) :
    fallback_get_response input =
      "Sorry — I don\x27t have a precise answer for that yet. Could you rephrase or ask about fabrics, sizes, orders, or returns?" := by
  have hk : normalizeStr input = "" := by
    unfold normalizeStr
    rw [h]
    rfl
  unfold fallback_get_response respond
  rw [hk]
  decide

/-- Witness for C7 at the concrete whitespace-only input `"   "`. -/
theorem C7_blank_input_witness :
    fallback_get_response "   " =
      "Sorry — I don\x27t have a precise answer for that yet. Could you rephrase or ask about fabrics, sizes, orders, or returns?" :=
  C7_blank_input "   " (by decide)

/-- Whitespace-separated words of a character list (Python `str.split()` on
spaces), used to state that a keyword occurs only as a substring and not as
a standalone word. -/
def splitOnSpace (acc : List Char) : List Char → List (List Char)
  | [] => if acc.isEmpty then [] else [acc.reverse]
  | c :: rest =>
    if c = ' ' then
      (if acc.isEmpty then splitOnSpace [] rest else acc.reverse :: splitOnSpace [] rest)
    else splitOnSpace (c :: acc) rest

/-- C9 (implicit): the keyword heuristics test substring containment, not
whole-word occurrence: the input "shipping" contains "hi" only as an inner
substring (its only whitespace-separated word is "shipping"), has no exact
and no accepted fuzzy match, yet the responder returns the table's greeting
entry for "hello". -/
theorem C9_substring_keyword :
    containsSub "hi".data "shipping".data = true ∧
    splitOnSpace [] "shipping".data = ["shipping".data] ∧
    containsKeyB (normalizeStr "shipping") (buildMapping CONVERSATION) = false ∧
    getCloseMatches 3 5 (normalizeStr "shipping").data
      ((buildMapping CONVERSATION).map fun p => p.1.data) = [] ∧
    fallback_get_response "shipping" =
      "Hello! Welcome to our textile and clothing store. How may I assist you today?" := by
  refine ⟨by decide, by decide, by decide, by decide, by decide⟩

/-- C10 counterexample: the phrase table src/app.py builds from its fixed
conversation list has 35 entries, not 34 as the claim describes it. -/
theorem C10_counterexample : (buildMapping CONVERSATION).length ≠ 34 := by decide

/-- C10 (amended): the two fallback responder implementations are not
equivalent: on the input "hey", src/app.py's responder (exact match over the
full 35-pair table, then fuzzy match, then keyword rules) returns the
greeting entry while src/main.py's responder (exact match only, over a
7-entry table, with a different generic fallback string) returns its own
generic fallback, so the two replies differ. -/
theorem C10_responders_differ :
    fallback_get_response "hey" ≠ main_fallback_get_response "hey" ∧
    fallback_get_response "hey" =
      "Hello! Welcome to our textile and clothing store. How may I assist you today?" ∧
    main_fallback_get_response "hey" =
      "Sorry, I don\x27t have an answer for that yet. Could you try rephrasing?" ∧
    (buildMapping CONVERSATION).length = 35 ∧
    mainMapping.length = 7 := by
  refine ⟨by decide, by decide, by decide, by decide, by decide⟩

/-- C2 counterexample: on the odd-length input `["a", "b", "c"]` the builder
does not fail with any error: it returns the well-formed one-entry table
built from the first two elements, silently ignoring the trailing "c". -/
theorem C2_counterexample : buildMapping ["a", "b", "c"] = [("a", "b")] := by decide

/-- Odd-length flat lists lose exactly their trailing element when cut into
pairs. -/
theorem toPairs_dropLast : ∀ (l : List String), l.length % 2 = 1 → toPairs l = toPairs l.dropLast
  | [], h => by simp at h
  | [_], _ => rfl
  | a :: b :: rest, h => by
    have hr : rest.length % 2 = 1 := by
      simp only [List.length_cons] at h
      omega
    have ih := toPairs_dropLast rest hr
    have hne : rest ≠ [] := by
      intro e
      rw [e] at hr
      simp at hr
    obtain ⟨c, rest2, rfl⟩ := List.exists_cons_of_ne_nil hne
    simp only [toPairs, List.dropLast, ih]

/-- C2 (amended): the builder raises no error on an odd-length input
sequence: it ignores the trailing unpaired element and returns exactly the
table built from the input without its last element. -/
theorem C2_odd_length_builder (l : List String) (h : l.length % 2 = 1) :
    buildMapping l = buildMapping l.dropLast := by
  unfold buildMapping
  rw [toPairs_dropLast l h]

/-- Witness for C2 at the concrete odd-length input `["a", "b", "c"]`. -/
theorem C2_odd_length_builder_witness :
    buildMapping ["a", "b", "c"] = buildMapping ["a", "b"] :=
  C2_odd_length_builder ["a", "b", "c"] (by decide)

/-- Every (prompt, response) pair of the source list is answered exactly by
the matching cascade once the input normalizes to the prompt's normal form
(checked by evaluation over the whole fixed list). -/
theorem respondCore_pairs :
    ∀ p ∈ toPairs CONVERSATION,
      respondCore (buildMapping CONVERSATION) (normalizeStr p.1) = p.2 := by decide

/-- C1: for every (prompt, response) pair in the fixed source conversation
list and every input whose trimmed, lower-cased form equals that of the
prompt (so the prompt itself and all leading/trailing-whitespace or
letter-case variations), the responder returns exactly the paired
response. -/
theorem C1_exact_match (i : Nat) (h : i < (toPairs CONVERSATION).length) (v : String)
    (hv : normalizeStr v = normalizeStr (((toPairs CONVERSATION).get ⟨i, h⟩).1)) :
    fallback_get_response v = ((toPairs CONVERSATION).get ⟨i, h⟩).2 := by
  unfold fallback_get_response respond
  rw [hv]
  exact respondCore_pairs _ (List.get_mem _ _ _)

/-- Witness for C1: the first pair, with the whitespace/case variation
`"  HELLO "` of the prompt `"Hello"`. -/
theorem C1_exact_match_witness :
    fallback_get_response "  HELLO " =
      "Hello! Welcome to our textile and clothing store. How may I assist you today?" :=
  C1_exact_match 0 (by decide) "  HELLO " (by decide)

/-- A defaulted lookup in a table whose values are all non-empty, with a
non-empty default, is non-empty. -/
theorem lookupD_ne {m : List (String × String)} (hvals : ∀ p ∈ m, p.2 ≠ "") {k d : String} (hd : d ≠ "") : lookupD k m d ≠ "" := by
  rcases hv : lookupStr k m with _ | v
  · rw [lookupD, hv]
    exact hd
  · rw [lookupD, hv]
    exact hvals _ (lookupStr_mem hv)

/-- The keyword and generic steps always produce a non-empty reply when the
table's values are non-empty. -/
theorem keywordFallback_ne {m : List (String × String)} (hvals : ∀ p ∈ m, p.2 ≠ "") (key : String) : keywordFallback m key ≠ "" := by
  unfold keywordFallback
  split_ifs <;> first
    | exact lookupD_ne hvals (by decide)
    | decide

/-- C6: for every string input whatsoever (including empty and
whitespace-only inputs), the src/app.py responder returns a non-empty string;
being a total function of its input, it raises no exception. -/
theorem C6_total_nonempty (input : String) : fallback_get_response input ≠ "" := by
  have hvals : ∀ p ∈ buildMapping CONVERSATION, p.2 ≠ "" := by decide
  unfold fallback_get_response respond respondCore
  by_cases hk : containsKeyB (normalizeStr input) (buildMapping CONVERSATION) = true
  · rw [if_pos hk]
    obtain ⟨v, hv⟩ := containsKeyB_some hk
    rw [lookupD, hv]
    exact hvals _ (lookupStr_mem hv)
  · rw [if_neg hk]
    rcases hgc : getCloseMatches 3 5 (normalizeStr input).data
        ((buildMapping CONVERSATION).map fun p => p.1.data) with _ | ⟨c, rest⟩
    · rw [hgc]
      exact keywordFallback_ne hvals _
    · rw [hgc]
      show lookupD (String.mk c) (buildMapping CONVERSATION) "" ≠ ""
      have hc : c ∈ (buildMapping CONVERSATION).map fun p => p.1.data :=
        (getCloseMatches_subset (hgc ▸ List.mem_cons_self c rest)).1
      rw [List.mem_map] at hc
      obtain ⟨p, hp, hpc⟩ := hc
      have hs : String.mk c = p.1 := by
        rw [← hpc]
      rw [hs]
      obtain ⟨v, hv⟩ := mem_keys_some (List.mem_map_of_mem Prod.fst hp)
      rw [lookupD, hv]
      exact hvals _ (lookupStr_mem hv)

/-! ## Validity of the matching blocks found by the difflib model

These lemmas show that every block reported by `flm` is a genuine common
contiguous block lying inside both sequences; they underpin the proof that
`ratio() <= quick_ratio() <= real_quick_ratio()`, which is what makes the
three-test filter of `get_close_matches` equivalent to `ratio() >= cutoff`. -/

theorem runEq_take_eq : ∀ (xs ys : List Char), xs.take (runEq xs ys) = ys.take (runEq xs ys)
  | [], ys => by cases ys <;> rfl
  | _ :: _, [] => rfl
  | x :: xs, y :: ys => by
    by_cases h : x = y
    · subst h
      have hr : runEq (x :: xs) (x :: ys) = runEq xs ys + 1 := by simp [runEq]
      rw [hr, List.take_succ_cons, List.take_succ_cons, runEq_take_eq xs ys]
    · simp [runEq, h]

theorem runEq_le_left : ∀ (xs ys : List Char), runEq xs ys ≤ xs.length
  | [], ys => by cases ys <;> simp [runEq]
  | _ :: _, [] => by simp [runEq]
  | x :: xs, y :: ys => by
    by_cases h : x = y
    · simpa [runEq, h] using runEq_le_left xs ys
    · simp [runEq, h]

theorem runEq_le_right : ∀ (xs ys : List Char), runEq xs ys ≤ ys.length
  | [], ys => by cases ys <;> simp [runEq]
  | _ :: _, [] => by simp [runEq]
  | x :: xs, y :: ys => by
    by_cases h : x = y
    · simpa [runEq, h] using runEq_le_right xs ys
    · simp [runEq, h]

theorem runNP_take_eq (pop : List Char) : ∀ (xs ys : List Char), xs.take (runNP pop xs ys) = ys.take (runNP pop xs ys)
  | [], ys => by cases ys <;> rfl
  | _ :: _, [] => rfl
  | x :: xs, y :: ys => by
    by_cases h : x = y ∧ y ∉ pop
    · obtain ⟨rfl, hpop⟩ := h
      have hr : runNP pop (x :: xs) (x :: ys) = runNP pop xs ys + 1 := by
        simp [runNP, hpop]
      rw [hr, List.take_succ_cons, List.take_succ_cons, runNP_take_eq pop xs ys]
    · simp [runNP, if_neg h]

theorem runNP_le_left (pop : List Char) : ∀ (xs ys : List Char), runNP pop xs ys ≤ xs.length
  | [], ys => by cases ys <;> simp [runNP]
  | _ :: _, [] => by simp [runNP]
  | x :: xs, y :: ys => by
    by_cases h : x = y ∧ y ∉ pop
    · simpa [runNP, if_pos h] using runNP_le_left pop xs ys
    · simp [runNP, if_neg h]

theorem runNP_le_right (pop : List Char) : ∀ (xs ys : List Char), runNP pop xs ys ≤ ys.length
  | [], ys => by cases ys <;> simp [runNP]
  | _ :: _, [] => by simp [runNP]
  | x :: xs, y :: ys => by
    by_cases h : x = y ∧ y ∉ pop
    · simpa [runNP, if_pos h] using runNP_le_right pop xs ys
    · simp [runNP, if_neg h]

theorem candRuns_spec {pop a b : List Char} {i j k : Nat} (h : (i, j, k) ∈ candRuns pop a b) :
    i < a.length ∧ j < b.length ∧ k = runNP pop (a.drop i) (b.drop j) := by
  unfold candRuns at h
  rw [List.mem_flatMap] at h
  obtain ⟨i2, hi2, h⟩ := h
  rw [List.mem_map] at h
  obtain ⟨j2, hj2, h⟩ := h
  cases h
  exact ⟨List.mem_range.mp hi2, List.mem_range.mp hj2, rfl⟩

theorem flmCore_spec (pop a b : List Char) :
    flmCore pop a b = (0, 0, 0) ∨ flmCore pop a b ∈ candRuns pop a b := by
  have := foldl_choice_mem (fun best c : Nat × Nat × Nat => if best.2.2 < c.2.2 then c else best)
    (fun x y => by by_cases h : x.2.2 < y.2.2 <;> simp [h]) (candRuns pop a b) (0, 0, 0)
  rcases List.mem_cons.mp this with h | h
  · exact Or.inl h
  · exact Or.inr h

theorem take_add_eq {u v : List Char} {k f : Nat} (h1 : u.take k = v.take k)
    (h2 : (u.drop k).take f = (v.drop k).take f) : u.take (k + f) = v.take (k + f) := by
  rw [List.take_add, List.take_add, h1, h2]

theorem flm_spec (pop a b : List Char) :
    ∃ i j k, flm pop a b = (i, j, k) ∧
      (a.drop i).take k = (b.drop j).take k ∧ i + k ≤ a.length ∧ j + k ≤ b.length := by
  obtain ⟨i0, j0, k0, hcore, hblk0, hik0, hjk0⟩ :
      ∃ i0 j0 k0, flmCore pop a b = (i0, j0, k0) ∧
        (a.drop i0).take k0 = (b.drop j0).take k0 ∧ i0 + k0 ≤ a.length ∧ j0 + k0 ≤ b.length := by
    rcases flmCore_spec pop a b with h | h
    · exact ⟨0, 0, 0, h, rfl, by simp, by simp⟩
    · rcases hc : flmCore pop a b with ⟨i0, j0, k0⟩
      rw [hc] at h
      obtain ⟨hi, hj, hk⟩ := candRuns_spec h
      refine ⟨i0, j0, k0, rfl, ?_, ?_, ?_⟩
      · rw [hk]
        exact runNP_take_eq pop _ _
      · have h2 := runNP_le_left pop (a.drop i0) (b.drop j0)
        rw [← hk, List.length_drop] at h2
        omega
      · have h2 := runNP_le_right pop (a.drop i0) (b.drop j0)
        rw [← hk, List.length_drop] at h2
        omega
  have hi0 : i0 ≤ a.length := by omega
  have hj0 : j0 ≤ b.length := by omega
  set e := runEq (a.take i0).reverse (b.take j0).reverse with he
  set i1 := i0 - e with hi1
  set j1 := j0 - e with hj1
  set k1 := k0 + e with hk1
  set f := runEq (a.drop (i1 + k1)) (b.drop (j1 + k1)) with hf
  have hel : e ≤ i0 := by
    have h2 := runEq_le_left (a.take i0).reverse (b.take j0).reverse
    rw [List.length_reverse, List.length_take, Nat.min_eq_left hi0] at h2
    exact h2
  have her : e ≤ j0 := by
    have h2 := runEq_le_right (a.take i0).reverse (b.take j0).reverse
    rw [List.length_reverse, List.length_take, Nat.min_eq_left hj0] at h2
    exact h2
  have hflm : flm pop a b = (i1, j1, k1 + f) := by
    simp only [flm, hcore]
  have hleft : (a.take i0).drop (i0 - e) = (b.take j0).drop (j0 - e) := by
    have h1 := runEq_take_eq (a.take i0).reverse (b.take j0).reverse
    rw [← he, List.take_reverse, List.take_reverse, List.length_take,
      Nat.min_eq_left hi0, List.length_take, Nat.min_eq_left hj0] at h1
    exact List.reverse_injective h1
  have hlenA : ((a.take i0).drop (i0 - e)).length = e := by
    rw [List.length_drop, List.length_take, Nat.min_eq_left hi0]
    omega
  have hsplitA : a.drop i1 = (a.take i0).drop (i0 - e) ++ a.drop i0 := by
    conv_lhs => rw [← List.take_append_drop i0 a]
    rw [List.drop_append_eq_append_drop, List.length_take, Nat.min_eq_left hi0,
      show i1 - i0 = 0 by omega, List.drop_zero, hi1]
  have hsplitB : b.drop j1 = (b.take j0).drop (j0 - e) ++ b.drop j0 := by
    conv_lhs => rw [← List.take_append_drop j0 b]
    rw [List.drop_append_eq_append_drop, List.length_take, Nat.min_eq_left hj0,
      show j1 - j0 = 0 by omega, List.drop_zero, hj1]
  have hblk1 : (a.drop i1).take k1 = (b.drop j1).take k1 := by
    rw [hsplitA, hsplitB]
    calc ((a.take i0).drop (i0 - e) ++ a.drop i0).take k1
        = ((a.take i0).drop (i0 - e) ++ a.drop i0).take (((a.take i0).drop (i0 - e)).length + k0) := by
          rw [hlenA]
          congr 1
          omega
      _ = (a.take i0).drop (i0 - e) ++ (a.drop i0).take k0 := List.take_append k0
      _ = (b.take j0).drop (j0 - e) ++ (b.drop j0).take k0 := by rw [hleft, hblk0]
      _ = ((b.take j0).drop (j0 - e) ++ b.drop j0).take (((b.take j0).drop (j0 - e)).length + k0) :=
          (List.take_append k0).symm
      _ = ((b.take j0).drop (j0 - e) ++ b.drop j0).take k1 := by
          rw [List.length_drop, List.length_take, Nat.min_eq_left hj0]
          congr 1
          omega
  refine ⟨i1, j1, k1 + f, hflm, ?_, ?_, ?_⟩
  · refine take_add_eq hblk1 ?_
    rw [List.drop_drop, List.drop_drop]
    exact runEq_take_eq _ _
  · have h2 := runEq_le_left (a.drop (i1 + k1)) (b.drop (j1 + k1))
    rw [← hf, List.length_drop] at h2
    omega
  · have h2 := runEq_le_right (a.drop (i1 + k1)) (b.drop (j1 + k1))
    rw [← hf, List.length_drop] at h2
    omega

theorem inter_add3_le (s1 s2 s3 t1 t2 t3 : Multiset Char) :
    s1 ∩ t1 + s2 ∩ t2 + s3 ∩ t3 ≤ (s1 + s2 + s3) ∩ (t1 + t2 + t3) := by
  rw [Multiset.le_iff_count]
  intro c
  simp only [Multiset.count_add, Multiset.count_inter]
  omega

/-- The total size of the matching blocks never exceeds the multiset
intersection of the two sequences (difflib's `quick_ratio` numerator). -/
theorem mtRec_le_inter (pop : List Char) : ∀ (fuel : Nat) (a b : List Char),
    mtRec pop fuel a b ≤ Multiset.card (Multiset.ofList a ∩ Multiset.ofList b)
  | 0, a, b => by simp [mtRec]
  | fuel + 1, a, b => by
    obtain ⟨i, j, k, hflm, hblk, hik, hjk⟩ := flm_spec pop a b
    simp only [mtRec, hflm]
    by_cases hk : k = 0
    · simp [hk]
    · rw [if_neg hk]
      have hsplitA : a = a.take i ++ ((a.drop i).take k ++ a.drop (i + k)) := by
        conv_lhs => rw [← List.take_append_drop i a]
        congr 1
        conv_lhs => rw [← List.take_append_drop k (a.drop i)]
        rw [List.drop_drop]
      have hsplitB : b = b.take j ++ ((b.drop j).take k ++ b.drop (j + k)) := by
        conv_lhs => rw [← List.take_append_drop j b]
        congr 1
        conv_lhs => rw [← List.take_append_drop k (b.drop j)]
        rw [List.drop_drop]
      have hA : Multiset.ofList a =
          Multiset.ofList (a.take i) + Multiset.ofList ((a.drop i).take k) +
            Multiset.ofList (a.drop (i + k)) := by
        conv_lhs => rw [hsplitA]
        rw [← Multiset.coe_add, ← Multiset.coe_add, add_assoc]
      have hB : Multiset.ofList b =
          Multiset.ofList (b.take j) + Multiset.ofList ((b.drop j).take k) +
            Multiset.ofList (b.drop (j + k)) := by
        conv_lhs => rw [hsplitB]
        rw [← Multiset.coe_add, ← Multiset.coe_add, add_assoc]
      have hmid : Multiset.ofList ((a.drop i).take k) ∩ Multiset.ofList ((b.drop j).take k) =
          Multiset.ofList ((a.drop i).take k) := by
        rw [hblk]
        exact le_antisymm (Multiset.inter_le_left _ _) (Multiset.le_inter le_rfl le_rfl)
      have hmidcard : Multiset.card (Multiset.ofList ((a.drop i).take k)) = k := by
        rw [Multiset.coe_card, List.length_take, List.length_drop]
        omega
      have h1 := mtRec_le_inter pop fuel (a.take i) (b.take j)
      have h2 := mtRec_le_inter pop fuel (a.drop (i + k)) (b.drop (j + k))
      calc mtRec pop fuel (a.take i) (b.take j) + k +
            mtRec pop fuel (a.drop (i + k)) (b.drop (j + k))
          ≤ Multiset.card (Multiset.ofList (a.take i) ∩ Multiset.ofList (b.take j)) + k +
            Multiset.card (Multiset.ofList (a.drop (i + k)) ∩ Multiset.ofList (b.drop (j + k))) := by
            omega
        _ = Multiset.card
              (Multiset.ofList (a.take i) ∩ Multiset.ofList (b.take j) +
               Multiset.ofList ((a.drop i).take k) ∩ Multiset.ofList ((b.drop j).take k) +
               Multiset.ofList (a.drop (i + k)) ∩ Multiset.ofList (b.drop (j + k))) := by
            simp only [Multiset.card_add, hmid, hmidcard]
        _ ≤ Multiset.card (Multiset.ofList a ∩ Multiset.ofList b) := by
            rw [hA, hB]
            exact Multiset.card_le_card (inter_add3_le _ _ _ _ _ _)

/-- difflib invariant: the `ratio` numerator is bounded by the `quick_ratio`
numerator. -/
theorem mTotal_le_inter (a b : List Char) :
    mTotal a b ≤ Multiset.card (Multiset.ofList a ∩ Multiset.ofList b) :=
  mtRec_le_inter _ _ a b

theorem inter_card_le_min (a b : List Char) :
    Multiset.card (Multiset.ofList a ∩ Multiset.ofList b) ≤ min a.length b.length := by
  refine le_min ?_ ?_
  · rw [← Multiset.coe_card a]
    exact Multiset.card_le_card (Multiset.inter_le_left _ _)
  · rw [← Multiset.coe_card b]
    exact Multiset.card_le_card (Multiset.inter_le_right _ _)

/-! ## Bridges between the executable comparisons and the rational ratios -/

theorem calcRatioQ_mono {m1 m2 : Nat} (t : Nat) (h : m1 ≤ m2) :
    calcRatioQ m1 t ≤ calcRatioQ m2 t := by
  unfold calcRatioQ
  split_ifs with ht
  · exact le_refl _
  · have ht2 : (0:ℚ) < t := by exact_mod_cast Nat.pos_of_ne_zero ht
    rw [div_le_div_right ht2]
    have h2 : (m1:ℚ) ≤ m2 := by exact_mod_cast h
    linarith

theorem geCutoffB_iff (m t : Nat) : geCutoffB 3 5 m t = true ↔ (3/5 : ℚ) ≤ calcRatioQ m t := by
  unfold geCutoffB calcRatioQ
  split_ifs with ht
  · constructor
    · intro _
      norm_num
    · intro _
      decide
  · have ht2 : (0:ℚ) < t := by exact_mod_cast Nat.pos_of_ne_zero ht
    rw [decide_eq_true_eq, div_le_div_iff (by norm_num) ht2]
    constructor
    · intro h
      have h2 : ((3 * t : Nat) : ℚ) ≤ ((5 * (2 * m) : Nat) : ℚ) := by exact_mod_cast h
      push_cast at h2
      linarith
    · intro h
      have h2 : ((3 * t : Nat) : ℚ) ≤ ((5 * (2 * m) : Nat) : ℚ) := by
        push_cast
        linarith
      exact_mod_cast h2

theorem ratioQ_le_quickRatioQ (x w : List Char) : ratioQ x w ≤ quickRatioQ x w :=
  calcRatioQ_mono _ (mTotal_le_inter x w)

theorem quickRatioQ_le_realQuickRatioQ (x w : List Char) : quickRatioQ x w ≤ realQuickRatioQ x w :=
  calcRatioQ_mono _ (inter_card_le_min x w)

/-- The three-test filter of `get_close_matches` accepts a candidate exactly
when its plain `ratio` reaches the cutoff: the two quick ratios are upper
bounds of `ratio`, so they cannot reject anything `ratio` accepts. -/
theorem candTestB_iff (x word : List Char) :
    candTestB 3 5 x word = true ↔ (3/5 : ℚ) ≤ ratioQ x word := by
  unfold candTestB
  rw [Bool.and_eq_true, Bool.and_eq_true]
  constructor
  · rintro ⟨-, h3⟩
    exact (geCutoffB_iff _ _).mp h3
  · intro h
    refine ⟨⟨(geCutoffB_iff _ _).mpr ?_, (geCutoffB_iff _ _).mpr ?_⟩, (geCutoffB_iff _ _).mpr h⟩
    · exact le_trans h (le_trans (ratioQ_le_quickRatioQ x word) (quickRatioQ_le_realQuickRatioQ x word))
    · exact le_trans h (ratioQ_le_quickRatioQ x word)

theorem ratLtB_iff (m1 t1 m2 t2 : Nat) :
    ratLtB m1 t1 m2 t2 = true ↔ calcRatioQ m1 t1 < calcRatioQ m2 t2 := by
  unfold ratLtB calcRatioQ
  split_ifs with h1 h2 h2
  · simp
  · have ht2 : (0:ℚ) < t2 := by exact_mod_cast Nat.pos_of_ne_zero h2
    rw [decide_eq_true_eq, lt_div_iff ht2, one_mul]
    constructor
    · intro h
      have h3 : ((t2 : Nat) : ℚ) < ((2 * m2 : Nat) : ℚ) := by exact_mod_cast h
      push_cast at h3
      linarith
    · intro h
      have h3 : ((t2 : Nat) : ℚ) < ((2 * m2 : Nat) : ℚ) := by
        push_cast
        linarith
      exact_mod_cast h3
  · have ht1 : (0:ℚ) < t1 := by exact_mod_cast Nat.pos_of_ne_zero h1
    rw [decide_eq_true_eq, div_lt_one ht1]
    constructor
    · intro h
      have h3 : ((2 * m1 : Nat) : ℚ) < ((t1 : Nat) : ℚ) := by exact_mod_cast h
      push_cast at h3
      linarith
    · intro h
      have h3 : ((2 * m1 : Nat) : ℚ) < ((t1 : Nat) : ℚ) := by
        push_cast
        linarith
      exact_mod_cast h3
  · have ht1 : (0:ℚ) < t1 := by exact_mod_cast Nat.pos_of_ne_zero h1
    have ht2 : (0:ℚ) < t2 := by exact_mod_cast Nat.pos_of_ne_zero h2
    rw [decide_eq_true_eq, div_lt_div_iff ht1 ht2]
    constructor
    · intro h
      have h3 : ((m1 * t2 : Nat) : ℚ) < ((m2 * t1 : Nat) : ℚ) := by exact_mod_cast h
      push_cast at h3
      linarith
    · intro h
      have h3 : ((m1 * t2 : Nat) : ℚ) < ((m2 * t1 : Nat) : ℚ) := by
        push_cast
        linarith
      exact_mod_cast h3

theorem ratEqB_iff (m1 t1 m2 t2 : Nat) :
    ratEqB m1 t1 m2 t2 = true ↔ calcRatioQ m1 t1 = calcRatioQ m2 t2 := by
  unfold ratEqB calcRatioQ
  split_ifs with h1 h2 h2
  · simp
  · have ht2 : (0:ℚ) < t2 := by exact_mod_cast Nat.pos_of_ne_zero h2
    rw [decide_eq_true_eq, eq_div_iff (ne_of_gt ht2), one_mul]
    constructor
    · intro h
      exact_mod_cast h
    · intro h
      exact_mod_cast h
  · have ht1 : (0:ℚ) < t1 := by exact_mod_cast Nat.pos_of_ne_zero h1
    rw [decide_eq_true_eq, div_eq_one_iff_eq (ne_of_gt ht1)]
    constructor
    · intro h
      have h3 : ((2 * m1 : Nat) : ℚ) = ((t1 : Nat) : ℚ) := by exact_mod_cast h
      push_cast at h3
      linarith
    · intro h
      have h3 : ((2 * m1 : Nat) : ℚ) = ((t1 : Nat) : ℚ) := by
        push_cast
        linarith
      exact_mod_cast h3
  · have ht1 : (0:ℚ) < t1 := by exact_mod_cast Nat.pos_of_ne_zero h1
    have ht2 : (0:ℚ) < t2 := by exact_mod_cast Nat.pos_of_ne_zero h2
    rw [decide_eq_true_eq, div_eq_div_iff (ne_of_gt ht1) (ne_of_gt ht2)]
    constructor
    · intro h
      have h3 : ((m1 * t2 : Nat) : ℚ) = ((m2 * t1 : Nat) : ℚ) := by exact_mod_cast h
      push_cast at h3
      linarith
    · intro h
      have h3 : ((m1 * t2 : Nat) : ℚ) = ((m2 * t1 : Nat) : ℚ) := by
        push_cast
        linarith
      exact_mod_cast h3

/-! ## Characterization of the selection made by get_close_matches -/

/-- The rational ratio a scored candidate stands for. -/
def scoreQ (p : ScoredKey) : ℚ := calcRatioQ p.1.1 p.1.2

theorem pairLtB_char (p q : ScoredKey) :
    pairLtB p q = true ↔
      (scoreQ p < scoreQ q ∨ (scoreQ p = scoreQ q ∧ lexLtB p.2 q.2 = true)) := by
  unfold pairLtB scoreQ
  rw [Bool.or_eq_true, Bool.and_eq_true, ratLtB_iff, ratEqB_iff]

theorem scoreQ_step_left (p c : ScoredKey) :
    scoreQ p ≤ scoreQ (if pairLtB p c then c else p) := by
  by_cases hb : pairLtB p c = true
  · rw [if_pos hb]
    rcases (pairLtB_char p c).mp hb with h | h
    · exact le_of_lt h
    · exact le_of_eq h.1
  · rw [if_neg hb]

theorem scoreQ_step_right (p c : ScoredKey) :
    scoreQ c ≤ scoreQ (if pairLtB p c then c else p) := by
  by_cases hb : pairLtB p c = true
  · rw [if_pos hb]
  · rw [if_neg hb]
    rcases lt_trichotomy (scoreQ p) (scoreQ c) with h | h | h
    · exact absurd ((pairLtB_char p c).mpr (Or.inl h)) hb
    · exact le_of_eq h.symm
    · exact le_of_lt h

theorem foldBest_scoreQ_ge :
    ∀ (l : List ScoredKey) (p q : ScoredKey), q ∈ p :: l →
      scoreQ q ≤ scoreQ (l.foldl (fun b c => if pairLtB b c then c else b) p)
  | [], p, q, hq => by
    rcases List.mem_cons.mp hq with h | h
    · subst h
      exact le_refl _
    · simp at h
  | c :: rest, p, q, hq => by
    have hstep := List.mem_cons_self (if pairLtB p c then c else p) rest
    have ih := foldBest_scoreQ_ge rest (if pairLtB p c then c else p)
    simp only [List.foldl_cons]
    rcases List.mem_cons.mp hq with h | h
    · subst h
      exact le_trans (scoreQ_step_left q c) (ih _ hstep)
    · rcases List.mem_cons.mp h with h2 | h2
      · subst h2
        exact le_trans (scoreQ_step_right p q) (ih _ hstep)
      · exact ih q (List.mem_cons_of_mem _ h2)

theorem best1_scoreQ_max {l : List ScoredKey} {p : ScoredKey} (h : best1 l = some p) :
    ∀ q ∈ l, scoreQ q ≤ scoreQ p := by
  match l with
  | [] => simp [best1] at h
  | r :: rest =>
    simp only [best1, Option.some.injEq] at h
    intro q hq
    subst h
    exact foldBest_scoreQ_ge rest r q hq

/-- When every possibility scores below the cutoff, `get_close_matches`
returns nothing. -/
theorem gcm_all_below {w : List Char} {poss : List (List Char)}
    (h : ∀ x ∈ poss, ratioQ x w < (3/5 : ℚ)) : getCloseMatches 3 5 w poss = [] := by
  have hc : gcmCands 3 5 w poss = [] := by
    rw [gcmCands, List.filterMap_eq_nil]
    intro x hx
    have hne : ¬ (candTestB 3 5 x w = true) := by
      rw [candTestB_iff]
      exact not_le.mpr (h x hx)
    rw [if_neg hne]
  unfold getCloseMatches
  rw [hc]
  rfl

/-- When some possibility reaches the cutoff, `get_close_matches` returns a
single candidate. -/
theorem gcm_nonempty {w x0 : List Char} {poss : List (List Char)} (hx0 : x0 ∈ poss)
    (h : (3/5 : ℚ) ≤ ratioQ x0 w) : ∃ c, getCloseMatches 3 5 w poss = [c] := by
  have hmem : (((mTotal x0 w, x0.length + w.length), x0) : ScoredKey) ∈ gcmCands 3 5 w poss := by
    rw [gcmCands, List.mem_filterMap]
    exact ⟨x0, hx0, by rw [if_pos ((candTestB_iff x0 w).mpr h)]⟩
  rcases hl : gcmCands 3 5 w poss with _ | ⟨r, rest⟩
  · rw [hl] at hmem
    simp at hmem
  · refine ⟨(rest.foldl (fun b c => if pairLtB b c then c else b) r).2, ?_⟩
    unfold getCloseMatches
    rw [hl]
    rfl

/-- The single candidate returned by `get_close_matches` is a possibility
that reaches the cutoff and whose ratio is maximal among all
possibilities. -/
theorem gcm_best_spec {w c : List Char} {poss : List (List Char)}
    (h : getCloseMatches 3 5 w poss = [c]) :
    c ∈ poss ∧ (3/5 : ℚ) ≤ ratioQ c w ∧ ∀ x ∈ poss, ratioQ x w ≤ ratioQ c w := by
  have hcm : c ∈ getCloseMatches 3 5 w poss := by
    rw [h]
    exact List.mem_cons_self _ _
  obtain ⟨hc_poss, hc_test⟩ := getCloseMatches_subset hcm
  refine ⟨hc_poss, (candTestB_iff c w).mp hc_test, ?_⟩
  intro x hx
  by_cases hxt : candTestB 3 5 x w = true
  · unfold getCloseMatches at h
    rcases hb : best1 (gcmCands 3 5 w poss) with _ | p
    · rw [hb] at h
      simp at h
    · rw [hb] at h
      simp only [List.cons.injEq] at h
      obtain ⟨hpc, -⟩ := h
      have hxmem : (((mTotal x w, x.length + w.length), x) : ScoredKey) ∈ gcmCands 3 5 w poss := by
        rw [gcmCands, List.mem_filterMap]
        exact ⟨x, hx, by rw [if_pos hxt]⟩
      have hle := best1_scoreQ_max hb _ hxmem
      have hp := gcmCands_mem (best1_mem hb)
      have hps : scoreQ p = ratioQ c w := by
        unfold scoreQ ratioQ
        rw [hp.2.2.1, hp.2.2.2, hpc]
      rw [← hps]
      exact hle
  · have hlt : ratioQ x w < 3/5 := by
      by_contra hge
      exact hxt ((candTestB_iff x w).mpr (not_lt.mp hge))
    exact le_of_lt (lt_of_lt_of_le hlt ((candTestB_iff c w).mp hc_test))

theorem keys_data_mem {m : List (String × String)} {k : String} (h : k ∈ m.map Prod.fst) :
    k.data ∈ m.map fun p => p.1.data := by
  rw [List.mem_map] at h ⊢
  obtain ⟨p, hp, hk⟩ := h
  exact ⟨p, hp, by rw [hk]⟩

/-- C3: over any phrase table, if the normalized input is not a key but some
key has similarity ratio at least 0.6 to it, the responder answers with the
response stored under a key of maximal ratio (itself at least 0.6); and if
every key's ratio is below 0.6 the fuzzy step is skipped and the responder
falls through to the keyword/generic steps. -/
theorem C3_fuzzy_match (m : List (String × String)) (input : String) :
    (containsKeyB (normalizeStr input) m = false →
      (∃ k ∈ m.map Prod.fst, (3/5 : ℚ) ≤ ratioQ k.data (normalizeStr input).data) →
      ∃ k ∈ m.map Prod.fst, (3/5 : ℚ) ≤ ratioQ k.data (normalizeStr input).data ∧
        (∀ k2 ∈ m.map Prod.fst,
          ratioQ k2.data (normalizeStr input).data ≤ ratioQ k.data (normalizeStr input).data) ∧
        respond m input = lookupD k m "") ∧
    (containsKeyB (normalizeStr input) m = false →
      (∀ k ∈ m.map Prod.fst, ratioQ k.data (normalizeStr input).data < (3/5 : ℚ)) →
      respond m input = keywordFallback m (normalizeStr input)) := by
  constructor
  · rintro hkey ⟨k0, hk0m, hk0r⟩
    obtain ⟨c, hc⟩ := gcm_nonempty (keys_data_mem hk0m) hk0r
    obtain ⟨hcp, hcr, hcmax⟩ := gcm_best_spec hc
    rw [List.mem_map] at hcp
    obtain ⟨p, hpm, hpc⟩ := hcp
    refine ⟨p.1, List.mem_map_of_mem Prod.fst hpm, ?_, ?_, ?_⟩
    · rw [hpc]
      exact hcr
    · intro k2 hk2
      rw [hpc]
      exact hcmax k2.data (keys_data_mem hk2)
    · unfold respond respondCore
      rw [if_neg (by simp [hkey]), hc]
      show lookupD (String.mk c) m "" = lookupD p.1 m ""
      rw [show String.mk c = p.1 by rw [← hpc]]
  · intro hkey hbelow
    unfold respond respondCore
    rw [if_neg (by simp [hkey])]
    rw [gcm_all_below ?_]
    intro x hx
    rw [List.mem_map] at hx
    obtain ⟨p, hpm, hpc⟩ := hx
    rw [← hpc]
    exact hbelow p.1 (List.mem_map_of_mem Prod.fst hpm)

set_option maxRecDepth 8192 in
/-- Witness for C3, both halves: the input "helo" fuzzy-matches the key
"hello" (ratio 8/9), while the input "qzx" is below the cutoff for
every key, skipping the fuzzy step. -/
theorem C3_fuzzy_match_witness :
    (∃ k ∈ (buildMapping CONVERSATION).map Prod.fst,
      (3/5 : ℚ) ≤ ratioQ k.data (normalizeStr "helo").data ∧
      (∀ k2 ∈ (buildMapping CONVERSATION).map Prod.fst,
        ratioQ k2.data (normalizeStr "helo").data ≤ ratioQ k.data (normalizeStr "helo").data) ∧
      respond (buildMapping CONVERSATION) "helo" = lookupD k (buildMapping CONVERSATION) "") ∧
    respond (buildMapping CONVERSATION) "qzx" =
      keywordFallback (buildMapping CONVERSATION) (normalizeStr "qzx") := by
  constructor
  · refine (C3_fuzzy_match (buildMapping CONVERSATION) "helo").1 (by decide)
      ⟨"hello", by decide, ?_⟩
    exact (geCutoffB_iff (mTotal "hello".data (normalizeStr "helo").data)
      ("hello".data.length + (normalizeStr "helo").data.length)).mp (by decide)
  · refine (C3_fuzzy_match (buildMapping CONVERSATION) "qzx").2 (by decide) ?_
    have hb : ∀ k ∈ (buildMapping CONVERSATION).map Prod.fst,
        geCutoffB 3 5 (mTotal k.data (normalizeStr "qzx").data)
          (k.data.length + (normalizeStr "qzx").data.length) = false := by decide
    intro k hk
    have h2 := (geCutoffB_iff (mTotal k.data (normalizeStr "qzx").data)
      (k.data.length + (normalizeStr "qzx").data.length)).not
    rw [hb k hk] at h2
    exact not_le.mp (h2.mp (by simp))

/-- C5: over any phrase table, an input with no exact match and no fuzzy
match at ratio at least 0.6 that contains "hi", "hello" or "hey" receives
the table's entry for the key "hello" when that key is present and the
literal greeting otherwise; this holds whatever else the input contains, so
the greeting rule wins over the later thanks and return/refund rules. -/
theorem C5_greeting_keyword (m : List (String × String)) (input : String)
    (h1 : containsKeyB (normalizeStr input) m = false)
    (h2 : ∀ k ∈ m.map Prod.fst, ratioQ k.data (normalizeStr input).data < (3/5 : ℚ))
    (h3 : containsSub "hi".data (normalizeStr input).data = true ∨
          containsSub "hello".data (normalizeStr input).data = true ∨
          containsSub "hey".data (normalizeStr input).data = true) :
    respond m input = lookupD "hello" m "Hello!" := by
  unfold respond respondCore
  rw [if_neg (by simp [h1])]
  rw [gcm_all_below ?_]
  · unfold keywordFallback
    rw [if_pos ?_]
    rcases h3 with h | h | h <;> simp [h]
  · intro x hx
    rw [List.mem_map] at hx
    obtain ⟨p, hpm, hpc⟩ := hx
    rw [← hpc]
    exact h2 p.1 (List.mem_map_of_mem Prod.fst hpm)

set_option maxRecDepth 8192 in
/-- Witness for C5 at the concrete input "hiqzx": it contains "hi", matches
no key exactly, every key scores below the cutoff, and the reply is the
table's entry for "hello". -/
theorem C5_greeting_keyword_witness :
    respond (buildMapping CONVERSATION) "hiqzx" =
      lookupD "hello" (buildMapping CONVERSATION) "Hello!" := by
  refine C5_greeting_keyword (buildMapping CONVERSATION) "hiqzx" (by decide) ?_
    (Or.inl (by decide))
  have hb : ∀ k ∈ (buildMapping CONVERSATION).map Prod.fst,
      geCutoffB 3 5 (mTotal k.data (normalizeStr "hiqzx").data)
        (k.data.length + (normalizeStr "hiqzx").data.length) = false := by decide
  intro k hk
  have h2 := (geCutoffB_iff (mTotal k.data (normalizeStr "hiqzx").data)
    (k.data.length + (normalizeStr "hiqzx").data.length)).not
  rw [hb k hk] at h2
  exact not_le.mp (h2.mp (by simp))

/-! ## The tie-break order used by the candidate selection -/

theorem lexLtB_iff : ∀ (x y : List Char), lexLtB x y = true ↔ x < y
  | [], [] => by
    constructor
    · intro h
      simp [lexLtB] at h
    · intro h
      exact absurd h (lt_irrefl _)
  | [], y :: ys => by
    constructor
    · intro _
      exact List.nil_lt_cons y ys
    · intro _
      rfl
  | x :: xs, [] => by
    constructor
    · intro h
      simp [lexLtB] at h
    · intro h
      cases h
  | x :: xs, y :: ys => by
    by_cases h : x = y
    · subst h
      have hr : lexLtB (x :: xs) (x :: ys) = lexLtB xs ys := by simp [lexLtB]
      rw [hr, lexLtB_iff xs ys]
      constructor
      · intro h2
        exact List.Lex.cons h2
      · intro h2
        cases h2 with
        | cons h3 => exact h3
        | rel h3 => exact absurd h3 (lt_irrefl x)
    · have hr : lexLtB (x :: xs) (y :: ys) = decide (x < y) := by simp [lexLtB, h]
      rw [hr, decide_eq_true_eq]
      constructor
      · intro h2
        exact List.Lex.rel h2
      · intro h2
        cases h2 with
        | cons h3 => exact absurd rfl h
        | rel h3 => exact h3

/-- The linear-order value a scored candidate is compared by: its ratio,
then its key in Python's lexicographic string order. -/
def interpSK (p : ScoredKey) : ℚ ×ₗ (List Char) := toLex (scoreQ p, p.2)

theorem pairLtB_iff_interp (p q : ScoredKey) :
    pairLtB p q = true ↔ interpSK p < interpSK q := by
  rw [pairLtB_char, interpSK, interpSK, Prod.Lex.lt_iff, lexLtB_iff]

theorem foldBest_not_lt :
    ∀ (l : List ScoredKey) (p q : ScoredKey), q ∈ p :: l →
      ¬ (interpSK (l.foldl (fun b c => if pairLtB b c then c else b) p) < interpSK q)
  | [], p, q, hq => by
    rcases List.mem_cons.mp hq with h | h
    · subst h
      exact lt_irrefl _
    · simp at h
  | c :: rest, p, q, hq => by
    simp only [List.foldl_cons]
    by_cases hb : pairLtB p c = true
    · rw [if_pos hb]
      rcases List.mem_cons.mp hq with h | h
      · subst h
        intro hlt
        exact foldBest_not_lt rest c c (List.mem_cons_self c rest)
          (lt_trans hlt ((pairLtB_iff_interp q c).mp hb))
      · rcases List.mem_cons.mp h with h2 | h2
        · subst h2
          exact foldBest_not_lt rest q q (List.mem_cons_self q rest)
        · exact foldBest_not_lt rest c q (List.mem_cons_of_mem _ h2)
    · rw [if_neg hb]
      rcases List.mem_cons.mp hq with h | h
      · subst h
        exact foldBest_not_lt rest q q (List.mem_cons_self q rest)
      · rcases List.mem_cons.mp h with h2 | h2
        · subst h2
          intro hlt
          have hle : interpSK q ≤ interpSK p :=
            not_lt.mp (fun h3 => hb ((pairLtB_iff_interp p q).mpr h3))
          exact foldBest_not_lt rest p p (List.mem_cons_self p rest)
            (lt_of_lt_of_le hlt hle)
        · exact foldBest_not_lt rest p q (List.mem_cons_of_mem _ h2)

theorem best1_not_lt {l : List ScoredKey} {p : ScoredKey} (h : best1 l = some p) :
    ∀ q ∈ l, ¬ (interpSK p < interpSK q) := by
  match l with
  | [] => simp [best1] at h
  | r :: rest =>
    simp only [best1, Option.some.injEq] at h
    intro q hq
    subst h
    exact foldBest_not_lt rest r q hq

/-- C8: respond and the sentiment classifier are pure functions, so repeated
identical calls agree; moreover the fuzzy-match selection is deterministic
for a given table: the returned key is the unique maximum under the
(ratio, lexicographic key) order, so every other accepted candidate either
scores strictly lower or ties and is lexicographically smaller. -/
theorem C8_deterministic :
    (∀ (m : List (String × String)) (t : String), respond m t = respond m t) ∧
    (∀ (sia : String → PolarityScores) (t : String),
      analyze_sentiment sia t = analyze_sentiment sia t ∧
      get_sentiment_label sia t = get_sentiment_label sia t) ∧
    (∀ (w : List Char) (poss : List (List Char)) (c : List Char),
      getCloseMatches 3 5 w poss = [c] →
      c ∈ poss ∧ ∀ x ∈ poss, candTestB 3 5 x w = true → x ≠ c →
        (ratioQ x w < ratioQ c w ∨ (ratioQ x w = ratioQ c w ∧ lexLtB x c = true))) := by
  refine ⟨fun m t => rfl, fun sia t => ⟨rfl, rfl⟩, ?_⟩
  intro w poss c h
  have hcm : c ∈ getCloseMatches 3 5 w poss := by
    rw [h]
    exact List.mem_cons_self _ _
  refine ⟨(getCloseMatches_subset hcm).1, ?_⟩
  intro x hx hxt hxc
  unfold getCloseMatches at h
  rcases hb : best1 (gcmCands 3 5 w poss) with _ | p
  · rw [hb] at h
    simp at h
  · rw [hb] at h
    simp only [List.cons.injEq] at h
    obtain ⟨hpc, -⟩ := h
    have hxmem : (((mTotal x w, x.length + w.length), x) : ScoredKey) ∈ gcmCands 3 5 w poss := by
      rw [gcmCands, List.mem_filterMap]
      exact ⟨x, hx, by rw [if_pos hxt]⟩
    have hnlt := best1_not_lt hb _ hxmem
    have hp := gcmCands_mem (best1_mem hb)
    have hps : scoreQ p = ratioQ c w := by
      unfold scoreQ ratioQ
      rw [hp.2.2.1, hp.2.2.2, hpc]
    rcases lt_trichotomy (interpSK ((mTotal x w, x.length + w.length), x)) (interpSK p)
      with hlt | heq | hgt
    · rw [interpSK, interpSK, Prod.Lex.lt_iff] at hlt
      rcases hlt with h1 | ⟨h1, h2⟩
      · left
        rw [← hps]
        exact h1
      · right
        constructor
        · rw [← hps]
          exact h1
        · rw [lexLtB_iff, ← hpc]
          exact h2
    · have heq2 := toLex.injective heq
      have hx2 : x = p.2 := congrArg Prod.snd heq2
      exact absurd (hx2.trans hpc) hxc
    · exact absurd hgt hnlt

set_option maxRecDepth 8192 in
/-- Witness for C8's tie-break characterization at the input "helo" over the
src/app.py table: the selected key "hello" dominates every other accepted
candidate in the (ratio, lexicographic) order. -/
theorem C8_deterministic_witness :
    "hello".data ∈ ((buildMapping CONVERSATION).map fun p => p.1.data) ∧
    ∀ x ∈ (buildMapping CONVERSATION).map fun p => p.1.data,
      candTestB 3 5 x (normalizeStr "helo").data = true → x ≠ "hello".data →
      (ratioQ x (normalizeStr "helo").data <
          ratioQ "hello".data (normalizeStr "helo").data ∨
        (ratioQ x (normalizeStr "helo").data =
            ratioQ "hello".data (normalizeStr "helo").data ∧
          lexLtB x "hello".data = true)) :=
  C8_deterministic.2.2 (normalizeStr "helo").data
    ((buildMapping CONVERSATION).map fun p => p.1.data) "hello".data (by decide)
